import Mathlib

/-
Verification of the operator layer of the needle automatic-differentiation
library (`python/needle/ops.py`).

The development has two levels:

* a *shape* model: every array operation used by the operator catalogue
  (`swapaxes`, `reshape`, `broadcast_to`, `sum`, `matmul`) is embedded as a
  function on shapes (`List ℕ`), returning `Option` — `none` models the
  backend raising an error (e.g. a reshape to an incompatible element
  count, or an invalid axis).  On top of these, the shape behaviour of the
  `gradient` methods of `BroadcastTo`, `Summation` and `MatMul` is embedded
  verbatim from the source.

* a *value* model: elementwise operators act on flat buffers (`List ℚ`),
  and `Transpose` acts on arrays represented as a shape together with a
  multi-index valuation.

All definitions mirror the Python source; in particular the membership
test `i not in self.axes` of `Summation.gradient` is embedded as literal
integer membership, and numpy's axis normalisation (a negative axis `ax`
means `ax + ndim`) is embedded in the shape functions for the backend
primitives that perform it.
-/

namespace Needle

/-! ### Shape model of the array backend -/

/-- A shape is an ordered list of dimension sizes. -/
abbrev Shape := List ℕ

/-- numpy axis normalisation: a negative axis counts from the end. -/
def normAxis (n : ℕ) (ax : ℤ) : ℤ :=
  if ax < 0 then ax + n else ax

/-- The list with positions `i` and `j` exchanged (positions are assumed
in range; out-of-range positions are read with default `0`). -/
def swapList (l : List ℕ) (i j : ℕ) : List ℕ :=
  (List.range l.length).map fun p =>
    if p = i then l.getD j 0 else if p = j then l.getD i 0 else l.getD p 0

/-- Shape behaviour of `numpy.swapaxes`: swap two (possibly negative)
axes; invalid axes raise. -/
def swapAxesShape (s : Shape) (a1 a2 : ℤ) : Option Shape :=
  let i := normAxis s.length a1
  let j := normAxis s.length a2
  if 0 ≤ i ∧ i < s.length ∧ 0 ≤ j ∧ j < s.length then
    some (swapList s i.toNat j.toNat)
  else none

/-- Shape behaviour of `numpy.reshape`: the target shape must carry the
same number of elements. -/
def reshapeShape (s target : Shape) : Option Shape :=
  if s.prod = target.prod then some target else none

/-- `[1] * (r - len(s)) + s`: the shape left-padded with ones to rank `r`. -/
def padShape (s : Shape) (r : ℕ) : Shape :=
  List.replicate (r - s.length) 1 ++ s

/-- Validity of `numpy.broadcast_to s target`: the rank may only grow, and
every aligned dimension of the (left-padded) input must equal the target
dimension or be `1`. -/
def canBroadcastTo (s target : Shape) : Bool :=
  decide (s.length ≤ target.length) &&
    (List.range target.length).all fun i =>
      decide ((padShape s target.length).getD i 0 = target.getD i 0) ||
        decide ((padShape s target.length).getD i 0 = 1)

/-- Shape behaviour of `numpy.broadcast_to`. -/
def broadcastToShape (s target : Shape) : Option Shape :=
  if canBroadcastTo s target then some target else none

/-- Broadcasting of one aligned dimension pair. -/
def broadcastDim (a b : ℕ) : Option ℕ :=
  if a = b then some a
  else if a = 1 then some b
  else if b = 1 then some a
  else none

/-- General numpy broadcasting of two shapes given in right-to-left
(reversed) order. -/
def broadcastRev : List ℕ → List ℕ → Option (List ℕ)
  | [], ys => some ys
  | x :: xs, [] => some (x :: xs)
  | x :: xs, y :: ys =>
    match broadcastDim x y, broadcastRev xs ys with
    | some d, some rest => some (d :: rest)
    | _, _ => none

/-- General numpy broadcasting of two shapes (aligned from the right). -/
def broadcastShapes (s t : Shape) : Option Shape :=
  (broadcastRev s.reverse t.reverse).map List.reverse

/-- Shape behaviour of `numpy.sum a axes` (`keepdims=False`): `None`
reduces every axis to a scalar; a tuple of axes is normalised, must be
in range and duplicate-free, and the listed axes are removed. -/
def sumShape (s : Shape) (axes : Option (List ℤ)) : Option Shape :=
  match axes with
  | none => some []
  | some axs =>
    let n := s.length
    let norm := axs.map fun a => normAxis n a
    if (∀ a ∈ norm, 0 ≤ a ∧ a < (n : ℤ)) ∧ norm.Nodup then
      some ((List.range n).filterMap fun i : ℕ =>
        if (i : ℤ) ∈ norm then none else some (s.getD i 0))
    else none

/-- Shape behaviour of `numpy.matmul` for operands of rank ≥ 2: the
trailing two dimensions multiply as matrices (inner dimensions must
agree) and the leading dimensions broadcast. -/
def matmulShape (sa sb : Shape) : Option Shape :=
  match sa.reverse, sb.reverse with
  | k :: m :: ba, n :: k2 :: bb =>
    if k = k2 then
      (broadcastRev ba bb).map fun br => br.reverse ++ [m, n]
    else none
  | _, _ => none

/-! ### Shape behaviour of the operator gradients (embedded from
`ops.py`) -/

/-- `BroadcastTo.gradient`: the reduction axes
`[i for i in range(len(self.shape)) if self.shape[i] != unsqueezed[i]]`. -/
def broadcastToGradAxes (inShape target : Shape) : List ℕ :=
  (List.range target.length).filter fun i =>
    decide (target.getD i 0 ≠ (padShape inShape target.length).getD i 0)

/-- `BroadcastTo.gradient`: shape of
`reshape(summation(out_grad, tuple(axes)), in_shape)`, where `out_grad`
has the operator's target shape. -/
def broadcastToGradShape (inShape target : Shape) : Option Shape :=
  match sumShape target (some ((broadcastToGradAxes inShape target).map
      fun i : ℕ => (i : ℤ))) with
  | some s => reshapeShape s inShape
  | none => none

/-- The constructor argument of `Summation`: `None`, a single `int`, or a
tuple of `int`s. -/
inductive SumAxesArg where
  | noneArg : SumAxesArg
  | intArg : ℤ → SumAxesArg
  | tupleArg : List ℤ → SumAxesArg

/-- `Summation.__init__`: `(axes,) if isinstance(axes, int) else axes`. -/
def summationInitAxes : SumAxesArg → Option (List ℤ)
  | .noneArg => none
  | .intArg i => some [i]
  | .tupleArg t => some t

/-- `Summation.gradient`: the intermediate reshape target `out_shape`.
`out_shape = [1] * len(in_shape)`, and when `axes` is not `None`,
`out_shape[i] = in_shape[i]` for every loop index `i` with
`i not in self.axes` — literal integer membership in the stored tuple. -/
def summationGradOutShape (inShape : Shape) (axes : Option (List ℤ)) : Shape :=
  match axes with
  | none => List.replicate inShape.length 1
  | some axs =>
    (List.range inShape.length).map fun i : ℕ =>
      if (i : ℤ) ∈ axs then 1 else inShape.getD i 0

/-- `Summation.gradient`: shape of
`broadcast_to(reshape(out_grad, tuple(out_shape)), in_shape)`, where
`out_grad` has the shape produced by `Summation.compute`. -/
def summationGradShape (inShape : Shape) (axes : Option (List ℤ)) : Option Shape :=
  match sumShape inShape axes with
  | some og =>
    match reshapeShape og (summationGradOutShape inShape axes) with
    | some r => broadcastToShape r inShape
    | none => none
  | none => none

/-- `MatMul.gradient`: shapes of the returned pair.  `grad_1` is
`matmul(out_grad, transpose(rhs))`, `grad_2` is
`matmul(transpose(lhs), out_grad)` (`transpose` with `axes=None` swaps the
last two axes), and each is summed over its leading
`len(grad.shape) - len(operand.shape)` axes when that count is positive. -/
def matmulGradShapes (sa sb : Shape) : Option (Shape × Shape) :=
  match matmulShape sa sb with
  | none => none
  | some sg =>
    match swapAxesShape sb (-2) (-1), swapAxesShape sa (-2) (-1) with
    | some sbT, some saT =>
      match matmulShape sg sbT, matmulShape saT sg with
      | some g1, some g2 =>
        let b1 := g1.length - sa.length
        let b2 := g2.length - sb.length
        let r1 := if 0 < b1 then
            sumShape g1 (some ((List.range b1).map fun i : ℕ => (i : ℤ)))
          else some g1
        let r2 := if 0 < b2 then
            sumShape g2 (some ((List.range b2).map fun i : ℕ => (i : ℤ)))
          else some g2
        match r1, r2 with
        | some h1, some h2 => some (h1, h2)
        | _, _ => none
      | _, _ => none
    | _, _ => none

/-! ### Value model: elementwise operators on flat buffers -/

/-- `EWiseDiv.compute`: elementwise `a / b`. -/
def ewiseDivCompute (a b : List ℚ) : List ℚ :=
  List.zipWith (fun x y => x / y) a b

/-- `EWiseDiv.gradient`: `(out_grad / rhs, -out_grad * lhs / rhs ** 2)`,
with Python's precedence `((-out_grad) * lhs) / (rhs ** 2)`. -/
def ewiseDivGradient (out_grad a b : List ℚ) : List ℚ × List ℚ :=
  (List.zipWith (fun g y => g / y) out_grad b,
   List.zipWith (fun t y => t / y ^ 2)
     (List.zipWith (fun g x => -g * x) out_grad a) b)

/-- `ReLU.compute`: `numpy.maximum(a, [0])` — the one-element array `[0]`
broadcasts across `a`, so this is the elementwise maximum with zero. -/
def reluCompute (a : List ℚ) : List ℚ :=
  List.zipWith max a (List.replicate a.length 0)

/-- The numeric cast of the boolean mask `input > 0` used by
`ReLU.gradient` (strict comparison against zero). -/
def reluMask (a : List ℚ) : List ℚ :=
  a.map fun x => if 0 < x then 1 else 0

/-- `ReLU.gradient`: `out_grad * Tensor(input > 0)`. -/
def reluGradient (out_grad a : List ℚ) : List ℚ :=
  List.zipWith (fun g m => g * m) out_grad (reluMask a)

/-! ### Value model of `Transpose`: arrays as shape plus multi-index
valuation -/

/-- An array as a shape together with a valuation of multi-indices. -/
structure NDFun where
  shape : Shape
  val : List ℕ → ℚ

/-- Numerical ("forward") equality of arrays: same shape, same entry at
every index of the right rank. -/
def NDFun.eqv (a b : NDFun) : Prop :=
  a.shape = b.shape ∧ ∀ idx : List ℕ, idx.length = a.shape.length →
    a.val idx = b.val idx

/-- Validity of `Transpose(axes)` for a given input shape: both
(possibly negative, defaulted to `(-2, -1)`) axes must normalise into
range — what `numpy.swapaxes` requires. -/
def transposeValid (s : Shape) (axes : Option (ℤ × ℤ)) : Bool :=
  let p := axes.getD (-2, -1)
  let i := normAxis s.length p.1
  let j := normAxis s.length p.2
  decide (0 ≤ i) && decide (i < s.length) &&
    decide (0 ≤ j) && decide (j < s.length)

/-- `Transpose.compute`:
`swapaxes(a, *(self.axes if self.axes is not None else (-2, -1)))`.
The output shape swaps the two normalised positions, and the entry at
`idx` is the input entry at `idx` with the two positions swapped back
(swapping is its own inverse, so the same swap is used). -/
def transposeCompute (a : NDFun) (axes : Option (ℤ × ℤ)) : NDFun :=
  let p := axes.getD (-2, -1)
  let i := (normAxis a.shape.length p.1).toNat
  let j := (normAxis a.shape.length p.2).toNat
  ⟨swapList a.shape i j, fun idx => a.val (swapList idx i j)⟩

/-- `Transpose.gradient`: `transpose(out_grad, self.axes)` — the very
same transpose applied to the output-gradient. -/
def transposeGradient (out_grad : NDFun) (axes : Option (ℤ × ℤ)) : NDFun :=
  transposeCompute out_grad axes

/-! ### The operator catalogue: arity and gradient return form -/

/-- The closed catalogue of operator kinds defined in `ops.py`. -/
inductive OpKind where
  | ewiseAdd | addScalar | ewiseMul | mulScalar | powerScalar
  | ewiseDiv | divScalar | transposeK | reshapeK | broadcastToK
  | summationK | matMul | negateK | logK | expK | reluK
  deriving DecidableEq

/-- Number of input nodes each operator kind is applied to. -/
def numInputs : OpKind → ℕ
  | .ewiseAdd => 2
  | .ewiseMul => 2
  | .ewiseDiv => 2
  | .matMul => 2
  | _ => 1

/-- The syntactic form of the value returned by each `gradient` method:
a single node, or a tuple of nodes of a given length. -/
inductive GradForm where
  | single : GradForm
  | tuple : ℕ → GradForm
  deriving DecidableEq

/-- The form each `gradient` method in `ops.py` returns.  Read off the
`return` statements: `EWiseAdd`, `EWiseMul`, `EWiseDiv` and `MatMul`
return pairs; `MulScalar` returns the one-element tuple
`(out_grad * self.scalar,)`; every other operator returns a bare node. -/
def gradientForm : OpKind → GradForm
  | .ewiseAdd => .tuple 2
  | .ewiseMul => .tuple 2
  | .ewiseDiv => .tuple 2
  | .matMul => .tuple 2
  | .mulScalar => .tuple 1
  | _ => .single

/-! ### Auxiliary lemmas -/

theorem range_map_getD (s : List ℕ) :
    (List.range s.length).map (fun i => s.getD i 0) = s := by
  apply List.ext_getElem (by simp)
  intro q h1 h2
  simp only [List.getElem_map, List.getElem_range]
  exact List.getD_eq_getElem _ _ h2

theorem length_swapList (l : List ℕ) (i j : ℕ) :
    (swapList l i j).length = l.length := by
  simp [swapList]

theorem getElem_swapList (l : List ℕ) (i j q : ℕ)
    (h : q < (swapList l i j).length) :
    (swapList l i j)[q] =
      if q = i then l.getD j 0 else if q = j then l.getD i 0 else l.getD q 0 := by
  simp [swapList]

theorem getD_swapList (l : List ℕ) (i j q : ℕ) (hq : q < l.length) :
    (swapList l i j).getD q 0 =
      if q = i then l.getD j 0 else if q = j then l.getD i 0 else l.getD q 0 := by
  rw [List.getD_eq_getElem _ _ (by simpa [length_swapList] using hq),
    getElem_swapList]

theorem swapList_swapList (l : List ℕ) (i j : ℕ)
    (hi : i < l.length) (hj : j < l.length) :
    swapList (swapList l i j) i j = l := by
  apply List.ext_getElem (by simp [length_swapList])
  intro q h1 h2
  rw [getElem_swapList, ← List.getD_eq_getElem l 0 h2,
    getD_swapList l i j j hj, getD_swapList l i j i hi,
    getD_swapList l i j q h2]
  split_ifs <;> simp_all

theorem filterMap_range_ite_drop (s : List ℕ) (d : ℕ) (hd : d ≤ s.length) :
    ((List.range s.length).filterMap fun i =>
      if i < d then none else some (s.getD i 0)) = s.drop d := by
  have hsplit : List.range s.length =
      List.range d ++ (List.range (s.length - d)).map (fun x => d + x) := by
    rw [← List.range_add]
    congr 1
    omega
  rw [hsplit, List.filterMap_append]
  have h1 : ((List.range d).filterMap fun i =>
      if i < d then none else some (s.getD i 0)) = [] := by
    rw [List.filterMap_eq_nil_iff]
    intro a ha
    simp only [List.mem_range] at ha
    simp [ha]
  rw [h1, List.nil_append, List.filterMap_map]
  have h2 : ((List.range (s.length - d)).filterMap
      ((fun i => if i < d then none else some (s.getD i 0)) ∘ fun x => d + x)) =
      (List.range (s.length - d)).map fun j => s.getD (d + j) 0 := by
    rw [← List.filterMap_eq_map fun j => s.getD (d + j) 0]
    apply List.filterMap_congr
    intro a _
    simp only [Function.comp_apply]
    rw [if_neg (by omega)]
  rw [h2]
  apply List.ext_getElem (by simp [List.length_drop])
  intro q h1' h2'
  have hq : d + q < s.length := by
    simp only [List.length_map, List.length_range] at h1'
    omega
  simp only [List.getElem_map, List.getElem_range, List.getElem_drop]
  exact List.getD_eq_getElem _ _ hq

theorem normAxis_natCast (n i : ℕ) : normAxis n (i : ℤ) = (i : ℤ) := by
  simp [normAxis]

theorem sumShape_leading_range (s : List ℕ) (d : ℕ) (hd : d ≤ s.length) :
    sumShape s (some ((List.range d).map fun i : ℕ => (i : ℤ))) =
      some (s.drop d) := by
  have hnorm : ((List.range d).map fun i : ℕ => (i : ℤ)).map
      (fun a => normAxis s.length a) = (List.range d).map fun i : ℕ => (i : ℤ) := by
    rw [List.map_map]
    apply List.map_congr_left
    intro a _
    simp [Function.comp, normAxis_natCast]
  simp only [sumShape, hnorm]
  rw [if_pos]
  · congr 1
    rw [← filterMap_range_ite_drop s d hd]
    apply List.filterMap_congr
    intro a _
    have hmem : ((a : ℤ) ∈ (List.range d).map fun i : ℕ => (i : ℤ)) ↔ a < d := by
      simp [List.mem_map, Int.natCast_inj, List.mem_range]
    by_cases had : a < d
    · simp [hmem, had]
    · simp [hmem, had]
  · constructor
    · intro a ha
      simp only [List.mem_map, List.mem_range] at ha
      obtain ⟨i, hi, rfl⟩ := ha
      constructor
      · exact Int.natCast_nonneg i
      · exact_mod_cast Nat.lt_of_lt_of_le hi hd
    · exact (List.nodup_range d).map (fun a b => Int.natCast_inj.mp)

theorem broadcastRev_app_left (ys : List ℕ) :
    ∀ t, broadcastRev (ys ++ t) ys = some (ys ++ t) := by
  induction ys with
  | nil => intro t; cases t <;> rfl
  | cons y ys ih =>
    intro t
    show broadcastRev (y :: (ys ++ t)) (y :: ys) = _
    simp [broadcastRev, broadcastDim, ih t]

theorem broadcastRev_app_right (ys : List ℕ) :
    ∀ t, broadcastRev ys (ys ++ t) = some (ys ++ t) := by
  induction ys with
  | nil => intro t; rfl
  | cons y ys ih =>
    intro t
    show broadcastRev (y :: ys) (y :: (ys ++ t)) = _
    simp [broadcastRev, broadcastDim, ih t]

theorem swapAxesShape_last_two (l : List ℕ) (x y : ℕ) :
    swapAxesShape (l ++ [x, y]) (-2) (-1) = some (l ++ [y, x]) := by
  have hlen : (l ++ [x, y]).length = l.length + 2 := by simp
  have hi : normAxis (l ++ [x, y]).length (-2) = (l.length : ℤ) := by
    rw [hlen]; unfold normAxis; rw [if_pos (by norm_num)]; omega
  have hj : normAxis (l ++ [x, y]).length (-1) = (l.length + 1 : ℤ) := by
    rw [hlen]; unfold normAxis; rw [if_pos (by norm_num)]; omega
  simp only [swapAxesShape, hi, hj]
  rw [if_pos (by rw [hlen]; push_cast; omega)]
  congr 1
  have hx : (l ++ [x, y]).getD l.length 0 = x := by
    rw [List.getD_append_right _ _ _ _ le_rfl]; simp
  have hy : (l ++ [x, y]).getD (l.length + 1) 0 = y := by
    rw [List.getD_append_right _ _ _ _ (by omega)]
    simp [Nat.add_sub_cancel_left]
  have hiN : ((l.length : ℤ)).toNat = l.length := Int.toNat_natCast _
  have hjN : ((l.length + 1 : ℤ)).toNat = l.length + 1 := by
    rw [show ((l.length : ℤ) + 1) = ((l.length + 1 : ℕ) : ℤ) by push_cast; ring,
      Int.toNat_natCast]
  rw [hiN, hjN]
  apply List.ext_getElem (by simp [length_swapList])
  intro q h1 h2
  rw [getElem_swapList]
  by_cases hq1 : q = l.length
  · subst hq1
    rw [if_pos rfl, hy, List.getElem_append_right le_rfl]
    simp
  · by_cases hq2 : q = l.length + 1
    · subst hq2
      rw [if_neg hq1, if_pos rfl, hx,
        List.getElem_append_right (by omega : l.length ≤ l.length + 1)]
      simp
    · have hql : q < l.length := by
        simp at h2
        omega
      rw [if_neg hq1, if_neg hq2, List.getD_append _ _ _ _ hql,
        List.getElem_append_left hql, List.getD_eq_getElem _ _ hql]

theorem matmulShape_append (ba bb : List ℕ) (m k k' n : ℕ) :
    matmulShape (ba ++ [m, k]) (bb ++ [k', n]) =
      if k = k' then
        (broadcastRev ba.reverse bb.reverse).map fun br => br.reverse ++ [m, n]
      else none := by
  have h1 : (ba ++ [m, k]).reverse = k :: m :: ba.reverse := by
    simp
  have h2 : (bb ++ [k', n]).reverse = n :: k' :: bb.reverse := by
    simp
  simp only [matmulShape, h1, h2]

theorem prod_filterMap_ite (l : List ℕ) (c : ℕ → Prop) [DecidablePred c]
    (g : ℕ → ℕ) :
    (l.filterMap fun i => if c i then some (g i) else none).prod =
      (l.map fun i => if c i then g i else 1).prod := by
  induction l with
  | nil => rfl
  | cons a l ih =>
    by_cases h : c a
    · simp [List.filterMap_cons, h, ih]
    · simp [List.filterMap_cons, h, ih]

theorem length_padShape (s : Shape) (r : ℕ) (h : s.length ≤ r) :
    (padShape s r).length = r := by
  simp [padShape]
  omega

theorem prod_padShape (s : Shape) (r : ℕ) :
    (padShape s r).prod = s.prod := by
  simp [padShape]

/-! ### The claims -/

/-- C1 (refuted by the code): the shape invariant "every gradient node has
the shape of the corresponding input" is not established by the
composition of `reshape`/`broadcast_to`/`summation` for every valid
application.  `Summation(axes=(-1,))` on an input of shape `(2,3)` is a
valid application — the forward reduction succeeds with output shape
`(2,)` — but `gradient` reshapes the 2-element output-gradient to the
target `(2,3)` (6 elements), which the backend rejects, so no gradient of
the input's shape is produced. -/
theorem gradient_shape_invariant_fails_on_negative_axes :
    sumShape [2, 3] (some [-1]) = some [2] ∧
      summationGradShape [2, 3] (some [-1]) = none := by
  decide

/-- C4 (refuted by the code): for `Summation(axes=(-1,))` on an input of
shape `(2,3)` the constructor keeps the axis tuple `(-1,)`, the forward
computation reduces the last axis (output shape `(2,)`), yet the
gradient's reshape target is the full `(2,3)` instead of the
pre-reduction-restoring `(2,1)`: the reduced axis is not set to size 1. -/
theorem summation_grad_skips_negative_reduced_axis :
    summationInitAxes (SumAxesArg.intArg (-1)) = some [-1] ∧
      sumShape [2, 3] (some [-1]) = some [2] ∧
      summationGradOutShape [2, 3] (some [-1]) = [2, 3] ∧
      summationGradOutShape [2, 3] (some [-1]) ≠ [2, 1] := by
  decide

/-- C9: when the stored axes tuple of a `Summation` is non-empty and
consists only of negative integers, `Summation.gradient`'s intermediate
reshape target equals the full input shape — no position is set to size 1,
because the loop indices `0 .. n-1` are never literal members of a tuple
of negative integers. -/
theorem summation_negative_axes_reshape_target
    (inShape : Shape) (axs : List ℤ)
    (hne : axs ≠ []) (hneg : ∀ a ∈ axs, a < 0) (hrk : 1 ≤ inShape.length) :
    summationGradOutShape inShape (some axs) = inShape := by
  have h : ∀ i ∈ List.range inShape.length,
      (if (i : ℤ) ∈ axs then 1 else inShape.getD i 0) = inShape.getD i 0 := by
    intro i _
    rw [if_neg]
    intro hmem
    exact absurd (hneg _ hmem) (not_lt.mpr (Int.natCast_nonneg i))
  show (List.range inShape.length).map _ = inShape
  rw [List.map_congr_left h]
  exact range_map_getD inShape

/-- Witness for C9 at the concrete input shape `(2,5)` and axes
`(-1,-2)`. -/
theorem summation_negative_axes_reshape_target_witness :
    summationGradOutShape [2, 5] (some [-1, -2]) = [2, 5] :=
  summation_negative_axes_reshape_target [2, 5] [-1, -2] (by decide)
    (by decide) (by decide)

/-- C2 counterexample: for `a` of shape `(1,3,4)` and `b` of shape
`(5,4,2)` the forward matmul broadcasts the size-1 batch dimension, and
the returned gradient for `a` has shape `(5,3,4)` — not the operand's
original shape `(1,3,4)`: no leading axis is summed because the ranks
already agree. -/
theorem matmul_grad_shape_counterexample :
    matmulShape [1, 3, 4] [5, 4, 2] = some [5, 3, 2] ∧
      matmulGradShapes [1, 3, 4] [5, 4, 2] = some ([5, 3, 4], [5, 4, 2]) ∧
      matmulGradShapes [1, 3, 4] [5, 4, 2] ≠ some ([1, 3, 4], [5, 4, 2]) := by
  decide

/-- C5 counterexample: `MulScalar` has exactly one input but its
`gradient` returns the one-element tuple `(out_grad * self.scalar,)`, not
a single node. -/
theorem mulScalar_grad_returns_tuple :
    numInputs OpKind.mulScalar = 1 ∧
      gradientForm OpKind.mulScalar ≠ GradForm.single := by
  decide

/-- C5 as amended: every single-input operator except `MulScalar` returns
a single node from `gradient`; `MulScalar` returns a one-element tuple;
and every multi-input operator returns a tuple whose length equals its
input arity. -/
theorem gradient_arity_form (k : OpKind) :
    (numInputs k = 1 → k ≠ OpKind.mulScalar →
      gradientForm k = GradForm.single) ∧
      gradientForm OpKind.mulScalar = GradForm.tuple 1 ∧
      (2 ≤ numInputs k → gradientForm k = GradForm.tuple (numInputs k)) := by
  cases k <;> decide

/-- Witness for C5's amended statement at the concrete operator
`AddScalar`. -/
theorem gradient_arity_form_witness :
    gradientForm OpKind.addScalar = GradForm.single :=
  (gradient_arity_form OpKind.addScalar).1 (by decide) (by decide)

/-- C3: for every input shape that validly broadcasts to the target,
`BroadcastTo.gradient` sums the output-gradient over exactly the axes at
which the left-padded input shape differs from the target shape, and the
final reshape restores exactly the original input shape. -/
theorem broadcastTo_grad_axes_and_shape (inShape target : Shape)
    (h : canBroadcastTo inShape target = true) :
    broadcastToGradShape inShape target = some inShape ∧
      ∀ i : ℕ, i ∈ broadcastToGradAxes inShape target ↔
        i < target.length ∧
          target.getD i 0 ≠ (padShape inShape target.length).getD i 0 := by
  have hmem : ∀ i : ℕ, i ∈ broadcastToGradAxes inShape target ↔
      i < target.length ∧
        target.getD i 0 ≠ (padShape inShape target.length).getD i 0 := by
    intro i
    simp [broadcastToGradAxes, List.mem_filter, List.mem_range]
  refine ⟨?_, hmem⟩
  have hval : inShape.length ≤ target.length ∧
      ∀ i ∈ List.range target.length,
        (padShape inShape target.length).getD i 0 = target.getD i 0 ∨
          (padShape inShape target.length).getD i 0 = 1 := by
    simpa [canBroadcastTo, List.all_eq_true] using h
  obtain ⟨hlen, hpt⟩ := hval
  have hL : (padShape inShape target.length).length = target.length :=
    length_padShape _ _ hlen
  set L := padShape inShape target.length with hLdef
  set axes := broadcastToGradAxes inShape target with haxdef
  have hnodup : axes.Nodup := (List.nodup_range _).filter _
  have hmap : (axes.map fun i : ℕ => (i : ℤ)).map
      (fun a => normAxis target.length a) = axes.map fun i : ℕ => (i : ℤ) := by
    rw [List.map_map]
    apply List.map_congr_left
    intro a _
    simp [Function.comp, normAxis_natCast]
  have haxlt : ∀ i ∈ axes, i < target.length := fun i hi => ((hmem i).1 hi).1
  have hsum : sumShape target (some (axes.map fun i : ℕ => (i : ℤ))) =
      some ((List.range target.length).filterMap fun i =>
        if target.getD i 0 = L.getD i 0 then some (target.getD i 0) else none) := by
    simp only [sumShape, hmap]
    rw [if_pos]
    · congr 1
      apply List.filterMap_congr
      intro a ha
      have hmem2 : ((a : ℤ) ∈ axes.map fun i : ℕ => (i : ℤ)) ↔ a ∈ axes := by
        simp [List.mem_map, Int.natCast_inj]
      by_cases hc : target.getD a 0 = L.getD a 0
      · rw [if_neg, if_pos hc]
        rw [hmem2]
        intro hmem3
        exact ((hmem a).1 hmem3).2 hc
      · rw [if_pos, if_neg hc]
        rw [hmem2, hmem a]
        exact ⟨List.mem_range.mp ha, hc⟩
    · constructor
      · intro a ha
        simp only [List.mem_map] at ha
        obtain ⟨i, hi, rfl⟩ := ha
        exact ⟨Int.natCast_nonneg i, by exact_mod_cast haxlt i hi⟩
      · exact hnodup.map fun a b => Int.natCast_inj.mp
  have hprod : ((List.range target.length).filterMap fun i =>
      if target.getD i 0 = L.getD i 0 then some (target.getD i 0)
      else none).prod = inShape.prod := by
    rw [prod_filterMap_ite]
    have hcongr : ((List.range target.length).map fun i =>
        if target.getD i 0 = L.getD i 0 then target.getD i 0 else 1) =
        (List.range target.length).map fun i => L.getD i 0 := by
      apply List.map_congr_left
      intro i hi
      by_cases hc : target.getD i 0 = L.getD i 0
      · rw [if_pos hc, hc]
      · rcases hpt i hi with he | h1
        · exact absurd he.symm hc
        · rw [if_neg hc, h1]
    rw [hcongr, ← hL, range_map_getD, hLdef, prod_padShape]
  simp only [broadcastToGradShape, ← haxdef, hsum, reshapeShape]
  rw [if_pos hprod]

/-- Witness for C3 at the concrete broadcast of shape `(3,1)` to
`(2,3,4)`. -/
theorem broadcastTo_grad_axes_and_shape_witness :
    broadcastToGradShape [3, 1] [2, 3, 4] = some [3, 1] ∧
      ∀ i : ℕ, i ∈ broadcastToGradAxes [3, 1] [2, 3, 4] ↔
        i < ([2, 3, 4] : Shape).length ∧
          ([2, 3, 4] : Shape).getD i 0 ≠
            (padShape [3, 1] ([2, 3, 4] : Shape).length).getD i 0 :=
  broadcastTo_grad_axes_and_shape [3, 1] [2, 3, 4] (by decide)

/-- C6: `EWiseDiv.gradient` returns elementwise `g / b` for the numerator
and `-(g * a / b^2)` for the denominator. -/
theorem ewiseDiv_gradient_formula (g a b : List ℚ) (i : ℕ)
    (hga : g.length = a.length) (hab : a.length = b.length)
    (hi : i < g.length) :
    (ewiseDivGradient g a b).1.getD i 0 = g.getD i 0 / b.getD i 0 ∧
      (ewiseDivGradient g a b).2.getD i 0 =
        -(g.getD i 0 * a.getD i 0 / b.getD i 0 ^ 2) := by
  have hib : i < b.length := by omega
  have hia : i < a.length := by omega
  constructor
  · have hlen1 : (ewiseDivGradient g a b).1.length =
        min g.length b.length := by
      simp [ewiseDivGradient]
    rw [List.getD_eq_getElem _ _ (by rw [hlen1]; omega)]
    simp only [ewiseDivGradient, List.getElem_zipWith]
    rw [List.getD_eq_getElem _ _ hi, List.getD_eq_getElem _ _ hib]
  · have hlen2 : (ewiseDivGradient g a b).2.length =
        min (min g.length a.length) b.length := by
      simp [ewiseDivGradient]
    rw [List.getD_eq_getElem _ _ (by rw [hlen2]; omega)]
    simp only [ewiseDivGradient, List.getElem_zipWith]
    rw [List.getD_eq_getElem _ _ hi, List.getD_eq_getElem _ _ hia,
      List.getD_eq_getElem _ _ hib]
    ring

/-- Witness for C6 at `g = [6]`, `a = [4]`, `b = [2]`. -/
theorem ewiseDiv_gradient_formula_witness :
    (ewiseDivGradient [6] [4] [2]).1.getD 0 0 =
        ([6] : List ℚ).getD 0 0 / ([2] : List ℚ).getD 0 0 ∧
      (ewiseDivGradient [6] [4] [2]).2.getD 0 0 =
        -(([6] : List ℚ).getD 0 0 * ([4] : List ℚ).getD 0 0 /
          ([2] : List ℚ).getD 0 0 ^ 2) :=
  ewiseDiv_gradient_formula [6] [4] [2] 0 rfl rfl (by decide)

/-- C7: `relu(0) = 0`, the mask `[a > 0]` is a strict comparison, so the
gradient at an input entry equal to zero (indeed any non-positive entry)
is zero, not one. -/
theorem relu_zero_boundary :
    reluCompute [0] = [0] ∧
      (∀ g : ℚ, reluGradient [g] [0] = [0]) ∧
      ∀ x : ℚ, x ≤ 0 → reluMask [x] = [0] := by
  refine ⟨?_, ?_, ?_⟩
  · simp [reluCompute]
  · intro g
    simp [reluGradient, reluMask]
  · intro x hx
    simp [reluMask, not_lt.mpr hx]

/-- Witness for C7's mask clause at the boundary input `0` itself. -/
theorem relu_zero_boundary_witness : reluMask [(0 : ℚ)] = [0] :=
  relu_zero_boundary.2.2 0 le_rfl

/-- C10: `ReLU.compute` equals the elementwise maximum with zero, hence
every output entry is non-negative and the forward map is idempotent. -/
theorem relu_forward_max_idempotent (a : List ℚ) :
    reluCompute a = a.map (fun x => max x 0) ∧
      (∀ x : ℚ, x ∈ reluCompute a → 0 ≤ x) ∧
      reluCompute (reluCompute a) = reluCompute a := by
  have hstep : ∀ (x : ℚ) (l : List ℚ),
      reluCompute (x :: l) = max x 0 :: reluCompute l := by
    intro x l
    simp [reluCompute, List.replicate_succ]
  have hmap : ∀ l : List ℚ, reluCompute l = l.map fun x => max x 0 := by
    intro l
    induction l with
    | nil => rfl
    | cons x l ih => rw [hstep, ih, List.map_cons]
  refine ⟨hmap a, ?_, ?_⟩
  · intro x hx
    rw [hmap a] at hx
    simp only [List.mem_map] at hx
    obtain ⟨y, _, rfl⟩ := hx
    exact le_max_right y 0
  · rw [hmap (reluCompute a), hmap a, List.map_map]
    apply List.map_congr_left
    intro x _
    simp [Function.comp, max_assoc]

/-- Witness for C10's non-negativity clause at the entry `0` of
`relu([0])`. -/
theorem relu_forward_max_witness : (0 : ℚ) ≤ 0 :=
  (relu_forward_max_idempotent [0]).2.1 0 (by simp [reluCompute])

theorem transposeCompute_shape (a : NDFun) (axes : Option (ℤ × ℤ)) :
    (transposeCompute a axes).shape =
      swapList a.shape (normAxis a.shape.length (axes.getD (-2, -1)).1).toNat
        (normAxis a.shape.length (axes.getD (-2, -1)).2).toNat := rfl

theorem transposeCompute_val (a : NDFun) (axes : Option (ℤ × ℤ))
    (idx : List ℕ) :
    (transposeCompute a axes).val idx =
      a.val (swapList idx
        (normAxis a.shape.length (axes.getD (-2, -1)).1).toNat
        (normAxis a.shape.length (axes.getD (-2, -1)).2).toNat) := rfl

/-- C8: transposing twice with the same (valid) axis pair forward-equals
the original array; an unset axis pair behaves as `(-2, -1)`; and
`Transpose.gradient` is the identical transpose applied to the
output-gradient. -/
theorem transpose_self_inverse (a : NDFun) (axes : Option (ℤ × ℤ))
    (h : transposeValid a.shape axes = true) :
    NDFun.eqv (transposeCompute (transposeCompute a axes) axes) a ∧
      (∀ g : NDFun, transposeCompute g none =
        transposeCompute g (some (-2, -1))) ∧
      ∀ g : NDFun, transposeGradient g axes = transposeCompute g axes := by
  refine ⟨?_, fun g => rfl, fun g => rfl⟩
  simp only [transposeValid, Bool.and_eq_true, decide_eq_true_eq] at h
  obtain ⟨⟨⟨hi0, hil⟩, hj0⟩, hjl⟩ := h
  have hiN : (normAxis a.shape.length (axes.getD (-2, -1)).1).toNat <
      a.shape.length := by omega
  have hjN : (normAxis a.shape.length (axes.getD (-2, -1)).2).toNat <
      a.shape.length := by omega
  have hlen1 : (transposeCompute a axes).shape.length = a.shape.length := by
    rw [transposeCompute_shape, length_swapList]
  have hshape : (transposeCompute (transposeCompute a axes) axes).shape =
      a.shape := by
    rw [transposeCompute_shape, transposeCompute_shape, length_swapList]
    exact swapList_swapList a.shape _ _ hiN hjN
  refine ⟨hshape, ?_⟩
  intro idx hlidx
  rw [transposeCompute_val, hlen1, transposeCompute_val]
  congr 1
  have hlidx' : idx.length = a.shape.length := by
    rw [hlidx, hshape]
  exact swapList_swapList idx _ _ (hlidx' ▸ hiN) (hlidx' ▸ hjN)

/-- Witness for C8 at a concrete `(2,3)` array with the default axis
pair. -/
theorem transpose_self_inverse_witness :
    NDFun.eqv
      (transposeCompute (transposeCompute ⟨[2, 3], fun _ => 0⟩ none) none)
      ⟨[2, 3], fun _ => 0⟩ :=
  (transpose_self_inverse ⟨[2, 3], fun _ => 0⟩ none (by decide)).1

/-- C2 as amended: for `out = a @ b` with `a` of shape `ba ++ [m, k]` and
`b` of shape `bb ++ [k, n]`, the gradient rule builds
`g @ transpose(b)` and `transpose(a) @ g` and sums each over exactly its
leading rank-difference axes; this restores the operands' original shapes
*provided* each operand's batch shape is a suffix of the broadcast batch
shape (no aligned batch dimension was stretched from size 1). -/
theorem matmul_grad_shapes_restore_of_trailing_batches
    (ba bb bg : Shape) (m k n : ℕ)
    (hbc : broadcastShapes ba bb = some bg)
    (ha : ∃ u, u ++ ba = bg) (hb : ∃ v, v ++ bb = bg) :
    matmulGradShapes (ba ++ [m, k]) (bb ++ [k, n]) =
      some (ba ++ [m, k], bb ++ [k, n]) := by
  obtain ⟨u, hu⟩ := ha
  obtain ⟨v, hv⟩ := hb
  have hrev : broadcastRev ba.reverse bb.reverse = some bg.reverse := by
    simp only [broadcastShapes] at hbc
    obtain ⟨c, hc1, hc2⟩ := Option.map_eq_some'.mp hbc
    rw [hc1, ← hc2]
    simp
  have hfwd : matmulShape (ba ++ [m, k]) (bb ++ [k, n]) =
      some (bg ++ [m, n]) := by
    rw [matmulShape_append, if_pos rfl, hrev]
    simp
  have hbT : swapAxesShape (bb ++ [k, n]) (-2) (-1) = some (bb ++ [n, k]) :=
    swapAxesShape_last_two bb k n
  have haT : swapAxesShape (ba ++ [m, k]) (-2) (-1) = some (ba ++ [k, m]) :=
    swapAxesShape_last_two ba m k
  have hg1 : matmulShape (bg ++ [m, n]) (bb ++ [n, k]) =
      some (bg ++ [m, k]) := by
    rw [matmulShape_append, if_pos rfl]
    have hb2 : broadcastRev bg.reverse bb.reverse = some bg.reverse := by
      rw [← hv, List.reverse_append]
      exact broadcastRev_app_left bb.reverse v.reverse
    rw [hb2]
    simp
  have hg2 : matmulShape (ba ++ [k, m]) (bg ++ [m, n]) =
      some (bg ++ [k, n]) := by
    rw [matmulShape_append, if_pos rfl]
    have ha2 : broadcastRev ba.reverse bg.reverse = some bg.reverse := by
      rw [← hu, List.reverse_append]
      exact broadcastRev_app_right ba.reverse u.reverse
    rw [ha2]
    simp
  have hd1 : (bg ++ [m, k]).length - (ba ++ [m, k]).length = u.length := by
    rw [← hu]
    simp
  have hd2 : (bg ++ [k, n]).length - (bb ++ [k, n]).length = v.length := by
    rw [← hv]
    simp
  have hr1 : (if 0 < (bg ++ [m, k]).length - (ba ++ [m, k]).length then
      sumShape (bg ++ [m, k])
        (some ((List.range
          ((bg ++ [m, k]).length - (ba ++ [m, k]).length)).map
            fun i : ℕ => (i : ℤ)))
    else some (bg ++ [m, k])) = some (ba ++ [m, k]) := by
    rw [hd1]
    by_cases hu0 : 0 < u.length
    · rw [if_pos hu0, sumShape_leading_range _ _ (by rw [← hu]; simp)]
      rw [← hu, List.append_assoc, List.drop_left]
    · rw [if_neg hu0]
      have hunil : u = [] := List.length_eq_zero.mp (by omega)
      subst hunil
      rw [← hu]
      simp
  have hr2 : (if 0 < (bg ++ [k, n]).length - (bb ++ [k, n]).length then
      sumShape (bg ++ [k, n])
        (some ((List.range
          ((bg ++ [k, n]).length - (bb ++ [k, n]).length)).map
            fun i : ℕ => (i : ℤ)))
    else some (bg ++ [k, n])) = some (bb ++ [k, n]) := by
    rw [hd2]
    by_cases hv0 : 0 < v.length
    · rw [if_pos hv0, sumShape_leading_range _ _ (by rw [← hv]; simp)]
      rw [← hv, List.append_assoc, List.drop_left]
    · rw [if_neg hv0]
      have hvnil : v = [] := List.length_eq_zero.mp (by omega)
      subst hvnil
      rw [← hv]
      simp
  simp only [matmulGradShapes, hfwd, hbT, haT, hg1, hg2, hr1, hr2]

/-- Witness for C2's amended statement: `a` of shape `(2,3,4)` and `b` of
shape `(4,5)` — the gradient for `b` needs one leading axis summed
away. -/
theorem matmul_grad_shapes_restore_witness :
    matmulGradShapes [2, 3, 4] [4, 5] = some ([2, 3, 4], [4, 5]) :=
  matmul_grad_shapes_restore_of_trailing_batches [2] [] [2] 3 4 5
    (by decide) ⟨[], rfl⟩ ⟨[2], rfl⟩

end Needle
